import Mathlib

/-!
Verification of the task-tracking widget (src/script.js).

The development shallowly embeds the task store, the quick-text parser,
the filter/sort pipeline and the two date-bucketed projections of the
JavaScript source.  Machine numbers (ids, timestamps) are modelled as
integers; JS strings are Lean strings; falsy-or-default expressions
such as `x || d` are modelled explicitly.  Date computations are
modelled for a host running in the UTC timezone, with due-date strings
in the canonical `YYYY-MM-DD` form produced by the date inputs of the
app (other strings parse as an invalid date, like `new Date` on
garbage).  DOM reads (search box, sort select, current filter) are
passed as explicit parameters.
-/

namespace Todo

/-! ## JS helpers: truthiness defaults and character classes -/

/-- Model of the JS idiom `s || dflt` for strings: the empty string is falsy. -/
def jsOrStr (o : Option String) (dflt : String) : String :=
  match o with
  | some s => if s = "" then dflt else s
  | none => dflt

/-- Model of the JS idiom `n || dflt` for numbers: `0` is falsy. -/
def jsOrInt (o : Option Int) (dflt : Int) : Int :=
  match o with
  | some n => if n = 0 then dflt else n
  | none => dflt

/-- Model of the JS idiom `x || null` for an optional numeric timestamp. -/
def jsOrNullInt (o : Option Int) : Option Int :=
  match o with
  | some n => if n = 0 then none else some n
  | none => none

/-- Character class of the regex `\w`: ASCII letters, digits and underscore. -/
def isWordChar (c : Char) : Bool :=
  (('a' ≤ c) && (c ≤ 'z')) || (('A' ≤ c) && (c ≤ 'Z')) ||
  (('0' ≤ c) && (c ≤ '9')) || (c == '_')

/-- Exact list-of-characters match at the head of a string. -/
def startsWithSeq (pat s : List Char) : Bool :=
  match pat, s with
  | [], _ => true
  | _ :: _, [] => false
  | p :: ps, c :: cs => (p == c) && startsWithSeq ps cs

/-- Case-insensitive (ASCII) match at the head of a string, modelling a
regex with the `i` flag. -/
def ciStartsWithSeq (pat s : List Char) : Bool :=
  match pat, s with
  | [], _ => true
  | _ :: _, [] => false
  | p :: ps, c :: cs => (p.toLower == c.toLower) && ciStartsWithSeq ps cs

/-- Model of `String.prototype.includes` on character lists. -/
def containsSeq (pat s : List Char) : Bool :=
  match s with
  | [] => startsWithSeq pat []
  | _ :: cs => startsWithSeq pat s || containsSeq pat cs

/-- Model of `title.replace(match, '')` for a string (not regex) first
argument: removes the first occurrence of `pat`, if any. -/
def replaceFirstSeq (pat : List Char) (s : List Char) : List Char :=
  match s with
  | [] => []
  | c :: cs =>
    if startsWithSeq pat (c :: cs) then (c :: cs).drop pat.length
    else c :: replaceFirstSeq pat cs

/-- Fuel-driven recursion for `removeAllCI`; the fuel is a structural
termination device only and is always at least the list length at the
call sites, so the zero case is never reached. -/
def removeAllCIAux (pat : List Char) : Nat → List Char → List Char
  | 0, s => s
  | _ + 1, [] => []
  | fuel + 1, c :: cs =>
    if pat ≠ [] ∧ ciStartsWithSeq pat (c :: cs) = true then
      removeAllCIAux pat fuel ((c :: cs).drop pat.length)
    else c :: removeAllCIAux pat fuel cs

/-- Model of `title.replace(/pat/gi, '')`: removes every non-overlapping,
case-insensitive occurrence of `pat`, scanning left to right. -/
def removeAllCI (pat s : List Char) : List Char :=
  removeAllCIAux pat s.length s

/-- Model of `String.prototype.trim` (both ends, whitespace). -/
def jsTrimList (s : List Char) : List Char :=
  ((s.dropWhile Char.isWhitespace).reverse.dropWhile Char.isWhitespace).reverse

/-- Model of `String.prototype.trim` on strings. -/
def jsTrim (s : String) : String := String.mk (jsTrimList s.toList)

/-- Model of `String.prototype.split(',')`: chunks between commas,
never empty output (the empty string splits to one empty chunk). -/
def splitOnComma : List Char → List (List Char)
  | [] => [[]]
  | ',' :: rest => [] :: splitOnComma rest
  | c :: rest =>
    match splitOnComma rest with
    | [] => [[c]]
    | chunk :: chunks => (c :: chunk) :: chunks

/-! ## Data model -/

/-- A task record, after the repair performed by `loadTasks` or as built
by `addTask`.  Numeric ids and millisecond timestamps are modelled as
integers; `completedAt : Option Int` models the `timestamp`-or-`null`
field. -/
structure Task where
  id : Int
  title : String
  description : String
  completed : Bool
  priority : String
  category : String
  dueDate : String
  dueTime : String
  tags : List String
  createdAt : Int
  completedAt : Option Int
deriving DecidableEq, Repr

/-- The `tags` field of a persisted entry: absent, a comma-separated
string, or already an array. -/
inductive RawTags where
  | missing : RawTags
  | str : String → RawTags
  | arr : List String → RawTags
deriving DecidableEq, Repr

/-- A persisted entry as read back from the blob store, before repair.
Every field may be absent (or, for strings and numbers, falsy). -/
structure RawTask where
  id : Option Int
  title : Option String
  text : Option String
  description : Option String
  completed : Option Bool
  priority : Option String
  category : Option String
  dueDate : Option String
  date : Option String
  dueTime : Option String
  time : Option String
  tags : RawTags
  createdAt : Option Int
  completedAt : Option Int
deriving DecidableEq, Repr

/-- The argument of `addTask`: quick-parse output or the detailed form.
`title` is always supplied (the code dereferences it unconditionally). -/
structure TaskData where
  title : String
  description : Option String
  priority : Option String
  category : Option String
  dueDate : Option String
  dueTime : Option String
  tags : Option (List String)
deriving DecidableEq, Repr

/-- The update record built by `handleSaveEdit` and passed to
`updateTask`: always exactly these seven fields, unvalidated. -/
structure UpdateFields where
  title : String
  description : String
  dueDate : String
  dueTime : String
  priority : String
  category : String
  tags : List String
deriving DecidableEq, Repr

/-! ## Task store operations -/

/-- Repair of one persisted entry, embedding the `saved.map(task => ...)`
body of `loadTasks`. -/
def repairTask (fid fnow : Int) (r : RawTask) : Task :=
  { id := jsOrInt r.id fid
  , title := jsOrStr r.title (jsOrStr r.text "")
  , description := jsOrStr r.description ""
  , completed := r.completed.getD false
  , priority := jsOrStr r.priority "medium"
  , category := jsOrStr r.category "personal"
  , dueDate := jsOrStr r.dueDate (jsOrStr r.date "")
  , dueTime := jsOrStr r.dueTime (jsOrStr r.time "")
  , tags :=
      match r.tags with
      | RawTags.arr l => l
      | RawTags.str s =>
        if s = "" then []
        else (splitOnComma s.toList).map (fun chunk => String.mk (jsTrimList chunk))
      | RawTags.missing => []
  , createdAt := jsOrInt r.createdAt fnow
  , completedAt := jsOrNullInt r.completedAt }

/-- Embedding of `loadTasks`: `payload = none` models a corrupt blob
(the `JSON.parse` throw caught by the `try`), which yields the empty
list; otherwise every entry is repaired.  `fid`/`fnow` supply the fresh
`Date.now() + Math.random()` id and `Date.now()` per entry index. -/
def loadTasks (payload : Option (List RawTask)) (fid fnow : Nat → Int) : List Task :=
  match payload with
  | none => []
  | some raws => raws.enum.map (fun p => repairTask (fid p.1) (fnow p.1) p.2)

/-- Embedding of `addTask`: builds the task, rejects an empty trimmed
title (returns `false`, store untouched), otherwise appends. -/
def addTask (aid anow : Int) (d : TaskData) (tasks : List Task) : Bool × List Task :=
  let t : Task :=
    { id := aid
    , title := jsTrim d.title
    , description := jsOrStr (d.description.map jsTrim) ""
    , completed := false
    , priority := jsOrStr d.priority "medium"
    , category := jsOrStr d.category "personal"
    , dueDate := jsOrStr d.dueDate ""
    , dueTime := jsOrStr d.dueTime ""
    , tags := d.tags.getD []
    , createdAt := anow
    , completedAt := none }
  if t.title = "" then (false, tasks) else (true, tasks ++ [t])

/-- The id test `t.id === parseFloat(id)` (ids already numeric here). -/
def taskMatches (id : Int) (t : Task) : Bool := t.id == id

/-- Replace the first element satisfying `p` (the `findIndex` / assign
pattern used by `updateTask`). -/
def replaceFirstBy (p : Task → Bool) (f : Task → Task) : List Task → List Task
  | [] => []
  | t :: ts => if p t then f t :: ts else t :: replaceFirstBy p f ts

/-- Remove the first element satisfying `p` (the `findIndex` / `splice`
pattern used by `deleteTask`). -/
def removeFirstBy (p : Task → Bool) : List Task → List Task
  | [] => []
  | t :: ts => if p t then ts else t :: removeFirstBy p ts

/-- The spread merge `{ ...task, ...updates }` for the fixed update
record built by `handleSaveEdit`. -/
def applyUpdate (u : UpdateFields) (t : Task) : Task :=
  { t with
    title := u.title
  , description := u.description
  , dueDate := u.dueDate
  , dueTime := u.dueTime
  , priority := u.priority
  , category := u.category
  , tags := u.tags }

/-- Embedding of `updateTask`: merge by id, `false` when the id is
absent. -/
def updateTask (id : Int) (u : UpdateFields) (tasks : List Task) : Bool × List Task :=
  if tasks.any (taskMatches id) then
    (true, replaceFirstBy (taskMatches id) (applyUpdate u) tasks)
  else (false, tasks)

/-- Embedding of `deleteTask`: the confirmation prompt result is the
`confirmed` parameter; removal by id, `false` when declined or absent. -/
def deleteTask (confirmed : Bool) (id : Int) (tasks : List Task) : Bool × List Task :=
  if !confirmed then (false, tasks)
  else if tasks.any (taskMatches id) then (true, removeFirstBy (taskMatches id) tasks)
  else (false, tasks)

/-- The completion flip performed by `toggleTaskComplete` on the found
task: `completed = !completed`, then `completedAt = completed ? Date.now() : null`. -/
def flipTask (now : Int) (t : Task) : Task :=
  let c := !t.completed
  { t with completed := c, completedAt := if c then some now else none }

/-- Embedding of `toggleTaskComplete`. -/
def toggleTaskComplete (now : Int) (id : Int) (tasks : List Task) : Bool × List Task :=
  if tasks.any (taskMatches id) then
    (true, replaceFirstBy (taskMatches id) (flipTask now) tasks)
  else (false, tasks)

/-- One user-triggered store operation, with its environment inputs
(fresh ids and timestamps, confirmation results) made explicit. -/
inductive StoreOp where
  | load : Option (List RawTask) → (Nat → Int) → (Nat → Int) → StoreOp
  | add : Int → Int → TaskData → StoreOp
  | update : Int → UpdateFields → StoreOp
  | toggle : Int → Int → StoreOp
  | delete : Bool → Int → StoreOp

/-- Effect of one operation on the store list. -/
def applyOp : StoreOp → List Task → List Task
  | StoreOp.load payload fid fnow, _ => loadTasks payload fid fnow
  | StoreOp.add aid anow d, ts => (addTask aid anow d ts).2
  | StoreOp.update id u, ts => (updateTask id u ts).2
  | StoreOp.toggle now id, ts => (toggleTaskComplete now id ts).2
  | StoreOp.delete c id, ts => (deleteTask c id ts).2

/-- A sequence of store operations applied in order. -/
def runOps (ops : List StoreOp) (init : List Task) : List Task :=
  ops.foldl (fun ts op => applyOp op ts) init

/-! ## Filtering and sorting (`getFilteredTasks`) -/

/-- ASCII lowering of a whole string, modelling `toLowerCase` on the
app strings. -/
def lowerList (s : String) : List Char := s.toList.map Char.toLower

/-- The `priorityOrder` lookup object; an unknown key is `undefined`. -/
def priorityOrder (p : String) : Option Int :=
  if p = "high" then some 3
  else if p = "medium" then some 2
  else if p = "low" then some 1
  else none

/-- Model of `localeCompare` as code-point string comparison returning
a sign. -/
def strCompareInt (a b : String) : Int :=
  match compare a b with
  | Ordering.lt => -1
  | Ordering.eq => 0
  | Ordering.gt => 1

/-- Days since 1970-01-01 of a civil date (`m` is 1-based), the standard
days-from-civil computation; models the UTC day number of a `Date`. -/
def daysFromCivil (y m d : Int) : Int :=
  let y2 := if m ≤ 2 then y - 1 else y
  let era := Int.fdiv y2 400
  let yoe := y2 - era * 400
  let mp := Int.emod (m + 9) 12
  let doy := Int.fdiv (153 * mp + 2) 5 + d - 1
  let doe := yoe * 365 + Int.fdiv yoe 4 - Int.fdiv yoe 100 + doy
  era * 146097 + doe - 719468

/-- Numeric value of one ASCII digit character. -/
def digitVal (c : Char) : Nat := c.toNat - 48

/-- ASCII digit test. -/
def isDigitChar (c : Char) : Bool := (48 ≤ c.toNat) && (c.toNat ≤ 57)

/-- Model of `new Date(s)` for the canonical `YYYY-MM-DD` strings the
app stores (UTC host).  Result is `(year, zero-based month, day)`;
`none` models an invalid date (`NaN` time value). -/
def jsDateParse (s : String) : Option (Nat × Nat × Nat) :=
  match s.toList with
  | [y1, y2, y3, y4, h1, m1, m2, h2, d1, d2] =>
    if h1 = '-' ∧ h2 = '-' ∧
       ([y1, y2, y3, y4, m1, m2, d1, d2].all isDigitChar = true) then
      let yy := digitVal y1 * 1000 + digitVal y2 * 100 + digitVal y3 * 10 + digitVal y4
      let mm := digitVal m1 * 10 + digitVal m2
      let dd := digitVal d1 * 10 + digitVal d2
      if 1 ≤ mm ∧ mm ≤ 12 ∧ 1 ≤ dd ∧ dd ≤ 31 then some (yy, mm - 1, dd) else none
    else none
  | _ => none

/-- The time value used by the `date` sort: the due-date string parsed
to epoch milliseconds, the empty string mapped to the maximal-date
sentinel `new Date(8640000000000000)`, and an unparseable string to
`none` (`NaN`). -/
def dueDateValue (s : String) : Option Int :=
  if s = "" then some 8640000000000000
  else (jsDateParse s).map (fun p => daysFromCivil p.1 (p.2.1 + 1) p.2.2 * 86400000)

/-- The comparator passed to `filtered.sort`.  A `NaN` comparison result
(undefined priority, invalid date) is modelled as `0`, as the ECMAScript
sort treats it. -/
def taskCompare (sortBy : String) (a b : Task) : Int :=
  if a.completed && !b.completed then 1
  else if !a.completed && b.completed then -1
  else if sortBy = "priority" then
    match priorityOrder b.priority, priorityOrder a.priority with
    | some pb, some pa => pb - pa
    | _, _ => 0
  else if sortBy = "created" then b.createdAt - a.createdAt
  else if sortBy = "alphabetical" then strCompareInt a.title b.title
  else
    match dueDateValue a.dueDate, dueDateValue b.dueDate with
    | some da, some db => da - db
    | _, _ => 0

/-- Stable merge of two runs taking from the left while its head
compares `≤`. -/
def mergeLe (le : Task → Task → Bool) : List Task → List Task → List Task
  | [], ys => ys
  | x :: xs, [] => x :: xs
  | x :: xs, y :: ys =>
    if le x y then x :: mergeLe le xs (y :: ys)
    else y :: mergeLe le (x :: xs) ys
termination_by xs ys => xs.length + ys.length

/-- Stable top-down merge sort, modelling the stable
`Array.prototype.sort` with comparator `c` via `le a b = (c a b ≤ 0)`. -/
def mergeSortBy (le : Task → Task → Bool) (l : List Task) : List Task :=
  if h : l.length ≤ 1 then l
  else
    mergeLe le (mergeSortBy le (l.take (l.length / 2)))
      (mergeSortBy le (l.drop (l.length / 2)))
termination_by l.length
decreasing_by
  · simp only [List.length_take]
    omega
  · simp only [List.length_drop]
    omega

/-- Search predicate: case-insensitive substring match against title,
description, or any tag. -/
def searchMatch (term : List Char) (t : Task) : Bool :=
  containsSeq term (lowerList t.title) ||
  containsSeq term (lowerList t.description) ||
  t.tags.any (fun tag => containsSeq term (lowerList tag))

/-- Embedding of `getFilteredTasks`.  The current category, the raw
search-box value and the sort-select value are explicit parameters
(read from the DOM in the source). -/
def getFilteredTasks (category searchRaw sortBy : String) (tasks : List Task) : List Task :=
  let searchTerm := lowerList searchRaw
  let f1 := if category = "all" then tasks
            else tasks.filter (fun t => t.category == category)
  let f2 := if searchTerm.isEmpty then f1 else f1.filter (searchMatch searchTerm)
  mergeSortBy (fun a b => taskCompare sortBy a b ≤ 0) f2

/-! ## List projection: the five buckets -/

/-- Embedding of `isOverdue`: a (truthy) due date strictly before the
current ISO date string, not completed.  The comparison is the JS `<`
on strings, i.e. lexicographic. -/
def isOverdue (today : String) (t : Task) : Bool :=
  (t.dueDate != "") && decide (t.dueDate < today) && !t.completed

/-- Embedding of `isToday`: due date equal to the current ISO date. -/
def isToday (today : String) (t : Task) : Bool := t.dueDate == today

/-- Embedding of `isUpcoming`: due date strictly after the current ISO
date. -/
def isUpcoming (today : String) (t : Task) : Bool := decide (today < t.dueDate)

/-- The five sections rendered by the list view. -/
structure ListBuckets where
  overdue : List Task
  dueToday : List Task
  upcoming : List Task
  noDate : List Task
  completedTasks : List Task
deriving DecidableEq, Repr

/-- Embedding of the bucket computation of `renderListView`. -/
def renderListView (today : String) (tasks : List Task) : ListBuckets :=
  { overdue := tasks.filter (fun t => isOverdue today t)
  , dueToday := tasks.filter (fun t => isToday today t && !t.completed)
  , upcoming := tasks.filter (fun t => isUpcoming today t && !t.completed)
  , noDate := tasks.filter (fun t => (t.dueDate == "") && !t.completed)
  , completedTasks := tasks.filter (fun t => t.completed) }

/-! ## Calendar projection -/

/-- Gregorian leap-year test, as `Date` implements it. -/
def isLeapYear (y : Nat) : Bool :=
  ((y % 4 == 0) && (y % 100 != 0)) || (y % 400 == 0)

/-- Number of days of the displayed month, the value of
`new Date(year, month + 1, 0).getDate()` (`m0` zero-based). -/
def daysInMonth (y m0 : Nat) : Nat :=
  if m0 = 1 then (if isLeapYear y then 29 else 28)
  else if m0 = 3 ∨ m0 = 5 ∨ m0 = 8 ∨ m0 = 10 then 30
  else 31

/-- Weekday (0 = Sunday) of the first of the month, the value of
`new Date(year, month, 1).getDay()` on a UTC host; 1970-01-01 was a
Thursday. -/
def startDayOfWeek (y m0 : Nat) : Nat :=
  (Int.emod (daysFromCivil y (m0 + 1) 1 + 4) 7).toNat

/-- One ASCII digit character. -/
def padDigit (n : Nat) : Char := Char.ofNat (48 + n)

/-- The `toISOString().split('T')[0]` date string of a civil date on a
UTC host, `m0` zero-based. -/
def isoDateStr (y m0 d : Nat) : String :=
  String.mk [padDigit (y / 1000), padDigit (y / 100 % 10), padDigit (y / 10 % 10),
             padDigit (y % 10), '-', padDigit ((m0 + 1) / 10), padDigit ((m0 + 1) % 10),
             '-', padDigit (d / 10), padDigit (d % 10)]

/-- One cell of the calendar grid: a leading blank (`other-month`) cell
or a numbered day cell carrying its attached tasks. -/
inductive CalCell where
  | blank : CalCell
  | day : Nat → List Task → CalCell
deriving DecidableEq, Repr

/-- Day number of a cell, if it is a day cell. -/
def cellDayNum : CalCell → Option Nat
  | CalCell.blank => none
  | CalCell.day n _ => some n

/-- Whether task `t` is attached to (rendered inside) the cell. -/
def taskAttachedTo (t : Task) : CalCell → Bool
  | CalCell.blank => false
  | CalCell.day _ ts => decide (t ∈ ts)

/-- Embedding of the cell construction of `renderCalendarView`: the
leading blank cells for the starting weekday, then one cell per day of
the month, each holding the unfiltered tasks of that month whose
due-date string equals the cell date string. -/
def renderCalendarView (year m0 : Nat) (tasks : List Task) : List CalCell :=
  let tasksForMonth := tasks.filter (fun t =>
    match jsDateParse t.dueDate with
    | some p => (p.1 == year) && (p.2.1 == m0)
    | none => false)
  List.replicate (startDayOfWeek year m0) CalCell.blank ++
    (List.range' 1 (daysInMonth year m0)).map (fun d =>
      CalCell.day d (tasksForMonth.filter (fun t => t.dueDate == isoDateStr year m0 d)))

/-! ## Quick-text parser -/

/-- Result record of `parseQuickTask`. -/
structure QuickParsed where
  title : String
  priority : String
  category : String
  dueDate : String
  tags : List String
deriving DecidableEq, Repr

/-- Word-boundary test on the right of a match (`\b` after): end of
input or a non-word character. -/
def boundaryAfter : List Char → Bool
  | [] => true
  | c :: _ => !isWordChar c

/-- Try to match `kw ++ " priority"` case-insensitively at the head of
`s`, with a word boundary after; returns the matched slice in its
original casing. -/
def tryPriorityKw (kw : String) (s : List Char) : Option (List Char) :=
  let pat := (kw ++ " priority").toList
  if ciStartsWithSeq pat s && boundaryAfter (s.drop pat.length) then
    some (s.take pat.length)
  else none

/-- Leftmost match of `\b(high|medium|low) priority\b` with the `i`
flag: scan positions left to right, requiring a word boundary before
(tracked by `prevIsWord`). -/
def findPriorityFrom (prevIsWord : Bool) (s : List Char) : Option (List Char) :=
  match s with
  | [] => none
  | c :: cs =>
    match (if prevIsWord then none
           else match tryPriorityKw "high" (c :: cs) with
                | some m => some m
                | none =>
                  match tryPriorityKw "medium" (c :: cs) with
                  | some m => some m
                  | none => tryPriorityKw "low" (c :: cs)) with
    | some m => some m
    | none => findPriorityFrom (isWordChar c) cs

/-- First match of the regex `#(\w+)`: returns the captured word (the
run of word characters after the hash). -/
def findHashMatch : List Char → Option (List Char)
  | [] => none
  | '#' :: rest =>
    let w := rest.takeWhile isWordChar
    if w.isEmpty then findHashMatch rest else some w
  | _ :: rest => findHashMatch rest

/-- Fuel-driven recursion for `findAllHash`; the fuel is a structural
termination device only, always at least the list length at call
sites. -/
def findAllHashAux : Nat → List Char → List (List Char)
  | 0, _ => []
  | _ + 1, [] => []
  | fuel + 1, '#' :: rest =>
    let w := rest.takeWhile isWordChar
    if w.isEmpty then findAllHashAux fuel rest
    else w :: findAllHashAux fuel (rest.drop w.length)
  | fuel + 1, _ :: rest => findAllHashAux fuel rest

/-- All matches of `#(\w+)` with the `g` flag (non-overlapping, left to
right), each as its captured word. -/
def findAllHash (s : List Char) : List (List Char) :=
  findAllHashAux s.length s

/-- Fuel-driven recursion for `removeAllHash`. -/
def removeAllHashAux : Nat → List Char → List Char
  | 0, s => s
  | _ + 1, [] => []
  | fuel + 1, '#' :: rest =>
    let w := rest.takeWhile isWordChar
    if w.isEmpty then '#' :: removeAllHashAux fuel rest
    else removeAllHashAux fuel (rest.drop w.length)
  | fuel + 1, c :: rest => c :: removeAllHashAux fuel rest

/-- Removal of every `#(\w+)` match, modelling
`title.replace(/#(\w+)/g, '')`. -/
def removeAllHash (s : List Char) : List Char :=
  removeAllHashAux s.length s

/-- Embedding of `parseQuickTask`.  The current and next ISO date
strings (computed from the clock in the source) are explicit
parameters. -/
def parseQuickTask (todayStr tomorrowStr : String) (text : String) : QuickParsed :=
  let t0 := text.toList
  let pm := findPriorityFrom false t0
  let priority :=
    match pm with
    | some m => String.mk ((m.take (m.length - 9)).map Char.toLower)
    | none => "medium"
  let t1 :=
    match pm with
    | some m => jsTrimList (replaceFirstSeq m t0)
    | none => t0
  let cm := findHashMatch t1
  let category :=
    match cm with
    | some w => String.mk (w.map Char.toLower)
    | none => "personal"
  let t2 :=
    match cm with
    | some w => jsTrimList (replaceFirstSeq ('#' :: w) t1)
    | none => t1
  let tags := (findAllHash t2).map String.mk
  let t3 := jsTrimList (removeAllHash t2)
  let hasToday := containsSeq "today".toList (t3.map Char.toLower)
  let dueDate1 := if hasToday then todayStr else ""
  let t4 := if hasToday then jsTrimList (removeAllCI "today".toList t3) else t3
  let hasTomorrow := containsSeq "tomorrow".toList (t4.map Char.toLower)
  let dueDate2 := if hasTomorrow then tomorrowStr else dueDate1
  let t5 := if hasTomorrow then jsTrimList (removeAllCI "tomorrow".toList t4) else t4
  { title := String.mk t5
  , priority := priority
  , category := category
  , dueDate := dueDate2
  , tags := tags }

/-! ## Concrete fixtures used by witnesses and counterexamples -/

/-- A persisted entry whose `tags` field is the comma text `"a,a"`. -/
def rawTagsDup : RawTask :=
  ⟨none, some "A", none, none, none, none, none, none, none, none, none,
   RawTags.str "a,a", none, none⟩

/-- A persisted entry marked completed but with no `completedAt`. -/
def rawBadComplete : RawTask :=
  ⟨none, some "A", none, none, some true, none, none, none, none, none, none,
   RawTags.missing, none, none⟩

/-- Quick-add data for a plain task. -/
def dataBuy : TaskData := ⟨"Buy milk", none, none, none, none, none, none⟩

/-- An edit-modal update whose title is empty. -/
def updEmptyTitle : UpdateFields := ⟨"", "", "", "", "", "", []⟩

/-- A well-formed task used as a generic witness input. -/
def sampleTask : Task :=
  ⟨1, "Buy milk", "", false, "medium", "personal", "2024-01-15", "", [], 10, none⟩

/-- A task in the inconsistent state `completed = true`, `completedAt`
absent (reachable by loading such an entry). -/
def badToggleTask : Task :=
  ⟨1, "A", "", true, "medium", "personal", "", "", [], 0, none⟩

/-! ## Store invariants -/

/-- The completion invariant of the data model: `completedAt` is present
iff `completed` is true. -/
def CompleteInv (tasks : List Task) : Prop :=
  ∀ t ∈ tasks, t.completed = true ↔ t.completedAt ≠ none

/-- A store operation whose loaded entries (if it is a load) already
satisfy the completion invariant after repair. -/
def opCompletionOk : StoreOp → Prop
  | StoreOp.load (some raws) _ _ =>
    ∀ r ∈ raws, (r.completed.getD false = true ↔ jsOrNullInt r.completedAt ≠ none)
  | _ => True

/-- The title invariant of the data model: no stored task has an empty
title. -/
def TitleInv (tasks : List Task) : Prop := ∀ t ∈ tasks, t.title ≠ ""

/-- A store operation that cannot introduce an empty title: loads whose
repaired titles are nonempty, updates whose new title is nonempty. -/
def opTitleOk : StoreOp → Prop
  | StoreOp.load (some raws) _ _ => ∀ r ∈ raws, jsOrStr r.title (jsOrStr r.text "") ≠ ""
  | StoreOp.update _ u => u.title ≠ ""
  | _ => True

/-- Field agreement of a task after a double toggle with its original
state: every field equal, and `completedAt` still absent when it was
absent before. -/
def ToggleTwiceRel (a b : Task) : Prop :=
  b.id = a.id ∧ b.title = a.title ∧ b.description = a.description ∧
  b.completed = a.completed ∧ b.priority = a.priority ∧ b.category = a.category ∧
  b.dueDate = a.dueDate ∧ b.dueTime = a.dueTime ∧ b.tags = a.tags ∧
  b.createdAt = a.createdAt ∧ (a.completedAt = none → b.completedAt = none)

/-- Completion ordering used to state that no completed task precedes
an incomplete one. -/
def completedImp (a b : Task) : Prop := a.completed = true → b.completed = true

/-! ## Theorems -/

/-- C1, counterexample: on the spec input
`"Buy milk high priority #shopping today"` the parser does not report
`tags = ["shopping"]` — the leading hash token is removed from the
working title before the tag pass runs, so the tag list is empty. -/
theorem parseQuickTask_buy_milk_counterexample :
  (parseQuickTask "2026-10-11" "2026-10-12" "Buy milk high priority #shopping today").tags
    ≠ ["shopping"] := by
  decide

/-- C1, amended: for the input
`"Buy milk high priority #shopping today"` the quick-text parser
returns title `"Buy milk"`, priority high, category `"shopping"`, due
date equal to the current date, and an empty tag list: the leading
hash token sets the category and is consumed, so it is not also
captured as a tag. -/
theorem parseQuickTask_buy_milk :
  ∀ todayStr tomorrowStr : String,
    parseQuickTask todayStr tomorrowStr "Buy milk high priority #shopping today" =
      { title := "Buy milk", priority := "high", category := "shopping",
        dueDate := todayStr, tags := [] } :=
  fun _ _ => rfl

/-- C4, counterexample: a persisted entry with comma-text tags `"a,a"`
loads to the tag list `["a", "a"]`, which is not deduplicated. -/
theorem loadTasks_tags_counterexample :
  (loadTasks (some [rawTagsDup]) (fun _ => 1) (fun _ => 2)).map Task.tags = [["a", "a"]] ∧
  ¬ (["a", "a"] : List String).Nodup := by
  exact ⟨by decide, by decide⟩

/-- C4, amended: `load` repairs malformed entries with defaults — a
missing priority becomes medium, a missing category becomes personal,
comma-text tags are split on commas and trimmed (order preserved,
duplicates kept), array tags are kept as given — and a corrupt payload
yields the empty task list. -/
theorem loadTasks_repairs (r : RawTask) (fid fnow : Nat → Int) (s : String) (l : List String) :
  loadTasks none fid fnow = [] ∧
  (r.priority = none → (loadTasks (some [r]) fid fnow).map Task.priority = ["medium"]) ∧
  (r.category = none → (loadTasks (some [r]) fid fnow).map Task.category = ["personal"]) ∧
  (r.tags = RawTags.str s → s ≠ "" →
    (loadTasks (some [r]) fid fnow).map Task.tags =
      [(splitOnComma s.toList).map (fun chunk => String.mk (jsTrimList chunk))]) ∧
  (r.tags = RawTags.arr l → (loadTasks (some [r]) fid fnow).map Task.tags = [l]) := by
  refine ⟨rfl, ?_, ?_, ?_, ?_⟩
  · intro hp
    simp [loadTasks, repairTask, hp, jsOrStr]
  · intro hc
    simp [loadTasks, repairTask, hc, jsOrStr]
  · intro ht hs
    simp [loadTasks, repairTask, ht, hs]
  · intro ht
    simp [loadTasks, repairTask, ht]

/-- C4, witness for the amended repair theorem at concrete inputs. -/
theorem loadTasks_repairs_witness :
  (loadTasks none (fun _ => 1) (fun _ => 2) = []) ∧
  ((loadTasks (some [rawTagsDup]) (fun _ => 1) (fun _ => 2)).map Task.priority = ["medium"]) ∧
  ((loadTasks (some [rawTagsDup]) (fun _ => 1) (fun _ => 2)).map Task.category = ["personal"]) ∧
  ((loadTasks (some [rawTagsDup]) (fun _ => 1) (fun _ => 2)).map Task.tags =
    [(splitOnComma ("a,a" : String).toList).map (fun chunk => String.mk (jsTrimList chunk))]) :=
  ⟨(loadTasks_repairs rawTagsDup (fun _ => 1) (fun _ => 2) "a,a" []).1,
   (loadTasks_repairs rawTagsDup (fun _ => 1) (fun _ => 2) "a,a" []).2.1 rfl,
   (loadTasks_repairs rawTagsDup (fun _ => 1) (fun _ => 2) "a,a" []).2.2.1 rfl,
   (loadTasks_repairs rawTagsDup (fun _ => 1) (fun _ => 2) "a,a" []).2.2.2.1 rfl (by decide)⟩

/-- C7: adding a task whose title is empty after trimming is rejected:
the result signals failure and the task list is returned unchanged. -/
theorem addTask_rejects_empty_title (aid anow : Int) (d : TaskData) (tasks : List Task)
    (h : jsTrim d.title = "") :
  addTask aid anow d tasks = (false, tasks) := by
  simp [addTask, h]

/-- C7, witness: a whitespace-only title is rejected on the empty
store. -/
theorem addTask_rejects_empty_title_witness :
  jsTrim "   " = "" ∧
  addTask 1 2 ⟨"   ", none, none, none, none, none, none⟩ [] = (false, []) :=
  ⟨by decide,
   addTask_rejects_empty_title 1 2 ⟨"   ", none, none, none, none, none, none⟩ [] (by decide)⟩

/-- Elements of a first-replacement are either original elements or the
image of an original element. -/
theorem mem_replaceFirstBy (p : Task → Bool) (f : Task → Task) :
  ∀ (l : List Task) (x : Task), x ∈ replaceFirstBy p f l →
    x ∈ l ∨ ∃ t, t ∈ l ∧ x = f t := by
  intro l
  induction l with
  | nil =>
    intro x hx
    simp [replaceFirstBy] at hx
  | cons t ts ih =>
    intro x hx
    simp only [replaceFirstBy] at hx
    by_cases hp : p t
    · rw [if_pos hp] at hx
      rcases List.mem_cons.mp hx with h | h
      · exact Or.inr ⟨t, List.mem_cons_self t ts, h⟩
      · exact Or.inl (List.mem_cons_of_mem _ h)
    · rw [if_neg hp] at hx
      rcases List.mem_cons.mp hx with h | h
      · exact Or.inl (h ▸ List.mem_cons_self t ts)
      · rcases ih x h with h2 | ⟨u, hu, hx2⟩
        · exact Or.inl (List.mem_cons_of_mem _ h2)
        · exact Or.inr ⟨u, List.mem_cons_of_mem _ hu, hx2⟩

/-- Elements of a first-removal were elements of the original list. -/
theorem mem_removeFirstBy (p : Task → Bool) :
  ∀ (l : List Task) (x : Task), x ∈ removeFirstBy p l → x ∈ l := by
  intro l
  induction l with
  | nil =>
    intro x hx
    simp [removeFirstBy] at hx
  | cons t ts ih =>
    intro x hx
    simp only [removeFirstBy] at hx
    by_cases hp : p t
    · rw [if_pos hp] at hx
      exact List.mem_cons_of_mem _ hx
    · rw [if_neg hp] at hx
      rcases List.mem_cons.mp hx with h | h
      · exact h ▸ List.mem_cons_self t ts
      · exact List.mem_cons_of_mem _ (ih x h)

/-- Every loaded task is the repair of some persisted entry. -/
theorem mem_loadTasks (payload : Option (List RawTask)) (fid fnow : Nat → Int) :
  ∀ t ∈ loadTasks payload fid fnow,
    ∃ raws r i, payload = some raws ∧ r ∈ raws ∧ t = repairTask (fid i) (fnow i) r := by
  intro t ht
  match payload with
  | none => simp [loadTasks] at ht
  | some raws =>
    simp only [loadTasks, List.mem_map] at ht
    rcases ht with ⟨p, hp, hrep⟩
    have hget : raws[p.1]? = some p.2 := List.mem_enum_iff_getElem?.mp hp
    have hlt : p.1 < raws.length := by
      by_contra hge
      rw [List.getElem?_eq_none (Nat.le_of_not_lt hge)] at hget
      exact Option.noConfusion hget
    have : raws[p.1] = p.2 := by
      have := List.getElem?_eq_getElem hlt
      rw [this] at hget
      exact Option.some.inj hget
    exact ⟨raws, p.2, p.1, rfl, this ▸ List.getElem_mem hlt, hrep.symm⟩

/-- A single operation preserves the completion invariant, provided a
load brings only entries satisfying it. -/
theorem applyOp_completeInv (op : StoreOp) (ts : List Task)
    (h : CompleteInv ts) (hop : opCompletionOk op) : CompleteInv (applyOp op ts) := by
  match op with
  | StoreOp.load payload fid fnow =>
    intro t ht
    rcases mem_loadTasks payload fid fnow t ht with ⟨raws, r, i, hpay, hr, hrep⟩
    subst hpay
    have := hop r hr
    rw [hrep]
    simpa [repairTask] using this
  | StoreOp.add aid anow d =>
    intro t ht
    simp only [applyOp, addTask] at ht
    by_cases hz : jsTrim d.title = ""
    · rw [if_pos hz] at ht
      exact h t ht
    · rw [if_neg hz] at ht
      rcases List.mem_append.mp ht with h2 | h2
      · exact h t h2
      · rcases List.mem_singleton.mp h2 with rfl
        simp
  | StoreOp.update id u =>
    intro t ht
    simp only [applyOp, updateTask] at ht
    by_cases hany : ts.any (taskMatches id)
    · rw [if_pos hany] at ht
      rcases mem_replaceFirstBy _ _ ts t ht with h2 | ⟨x, hx, rfl⟩
      · exact h t h2
      · simpa [applyUpdate] using h x hx
    · rw [if_neg hany] at ht
      exact h t ht
  | StoreOp.toggle now id =>
    intro t ht
    simp only [applyOp, toggleTaskComplete] at ht
    by_cases hany : ts.any (taskMatches id)
    · rw [if_pos hany] at ht
      rcases mem_replaceFirstBy _ _ ts t ht with h2 | ⟨x, hx, rfl⟩
      · exact h t h2
      · simp only [flipTask]
        by_cases hc : x.completed <;> simp [hc]
    · rw [if_neg hany] at ht
      exact h t ht
  | StoreOp.delete c id =>
    intro t ht
    simp only [applyOp, deleteTask] at ht
    by_cases hc : c
    · simp only [hc] at ht
      by_cases hany : ts.any (taskMatches id)
      · rw [if_pos hany] at ht
        exact h t (mem_removeFirstBy _ ts t ht)
      · rw [if_neg hany] at ht
        exact h t ht
    · simp only [hc] at ht
      exact h t ht

/-- C5, amended: after any sequence of store operations starting from a
store satisfying the completion invariant, and whose loads bring only
entries satisfying it, `completedAt` is present iff `completed` is
true for every stored task.  (As stated over arbitrary loads the claim
fails, see the counterexample.) -/
theorem runOps_completeInv (ops : List StoreOp) (init : List Task)
    (h : CompleteInv init) (hops : ∀ op ∈ ops, opCompletionOk op) :
  CompleteInv (runOps ops init) := by
  induction ops generalizing init with
  | nil => exact h
  | cons op ops ih =>
    have h1 : CompleteInv (applyOp op init) :=
      applyOp_completeInv op init h (hops op (List.mem_cons_self op ops))
    have h2 : ∀ o ∈ ops, opCompletionOk o := fun o ho => hops o (List.mem_cons_of_mem _ ho)
    exact ih (applyOp op init) h1 h2

/-- C5, witness: the invariant holds after an add followed by a toggle
on the empty store. -/
theorem runOps_completeInv_witness :
  CompleteInv ([] : List Task) ∧
  CompleteInv (runOps [StoreOp.add 1 5 dataBuy, StoreOp.toggle 7 1] []) :=
  ⟨by intro t ht; simp at ht,
   runOps_completeInv [StoreOp.add 1 5 dataBuy, StoreOp.toggle 7 1] []
     (by intro t ht; simp at ht)
     (by
       intro op hop
       rcases List.mem_cons.mp hop with rfl | hop
       · trivial
       · rcases List.mem_cons.mp hop with rfl | hop
         · trivial
         · simp at hop)⟩

/-- C5, counterexample: loading a persisted entry with `completed:
true` and no `completedAt` puts a task with `completed = true` and
`completedAt` absent into the store, violating the claimed invariant
over the operation sequence consisting of that load. -/
theorem runOps_completeInv_counterexample :
  ¬ CompleteInv (runOps [StoreOp.load (some [rawBadComplete]) (fun _ => 1) (fun _ => 2)] []) := by
  intro h
  have hmem : repairTask 1 2 rawBadComplete ∈
      runOps [StoreOp.load (some [rawBadComplete]) (fun _ => 1) (fun _ => 2)] [] := by
    show repairTask 1 2 rawBadComplete ∈ [repairTask 1 2 rawBadComplete]
    exact List.mem_singleton.mpr rfl
  exact (h (repairTask 1 2 rawBadComplete) hmem).mp rfl rfl

/-- A single operation preserves nonempty titles, provided loads bring
only nonempty repaired titles and updates carry a nonempty title. -/
theorem applyOp_titleInv (op : StoreOp) (ts : List Task)
    (h : TitleInv ts) (hop : opTitleOk op) : TitleInv (applyOp op ts) := by
  match op with
  | StoreOp.load payload fid fnow =>
    intro t ht
    rcases mem_loadTasks payload fid fnow t ht with ⟨raws, r, i, hpay, hr, hrep⟩
    subst hpay
    have := hop r hr
    rw [hrep]
    simpa [repairTask] using this
  | StoreOp.add aid anow d =>
    intro t ht
    simp only [applyOp, addTask] at ht
    by_cases hz : jsTrim d.title = ""
    · rw [if_pos hz] at ht
      exact h t ht
    · rw [if_neg hz] at ht
      rcases List.mem_append.mp ht with h2 | h2
      · exact h t h2
      · rcases List.mem_singleton.mp h2 with rfl
        simpa using hz
  | StoreOp.update id u =>
    intro t ht
    simp only [applyOp, updateTask] at ht
    by_cases hany : ts.any (taskMatches id)
    · rw [if_pos hany] at ht
      rcases mem_replaceFirstBy _ _ ts t ht with h2 | ⟨x, hx, rfl⟩
      · exact h t h2
      · simpa [applyUpdate] using hop
    · rw [if_neg hany] at ht
      exact h t ht
  | StoreOp.toggle now id =>
    intro t ht
    simp only [applyOp, toggleTaskComplete] at ht
    by_cases hany : ts.any (taskMatches id)
    · rw [if_pos hany] at ht
      rcases mem_replaceFirstBy _ _ ts t ht with h2 | ⟨x, hx, rfl⟩
      · exact h t h2
      · simpa [flipTask] using h x hx
    · rw [if_neg hany] at ht
      exact h t ht
  | StoreOp.delete c id =>
    intro t ht
    simp only [applyOp, deleteTask] at ht
    by_cases hc : c
    · simp only [hc] at ht
      by_cases hany : ts.any (taskMatches id)
      · rw [if_pos hany] at ht
        exact h t (mem_removeFirstBy _ ts t ht)
      · rw [if_neg hany] at ht
        exact h t ht
    · simp only [hc] at ht
      exact h t ht

/-- C6, amended: every stored task keeps a nonempty title under any
sequence of store operations in which loaded entries repair to
nonempty titles and edits supply a nonempty title; creation alone is
safe because `addTask` rejects an empty trimmed title, but `updateTask`
merges an unvalidated title and can empty it (see the
counterexample). -/
theorem runOps_titleInv (ops : List StoreOp) (init : List Task)
    (h : TitleInv init) (hops : ∀ op ∈ ops, opTitleOk op) :
  TitleInv (runOps ops init) := by
  induction ops generalizing init with
  | nil => exact h
  | cons op ops ih =>
    have h1 : TitleInv (applyOp op init) :=
      applyOp_titleInv op init h (hops op (List.mem_cons_self op ops))
    have h2 : ∀ o ∈ ops, opTitleOk o := fun o ho => hops o (List.mem_cons_of_mem _ ho)
    exact ih (applyOp op init) h1 h2

/-- C6, witness: titles stay nonempty across an add and a toggle on the
empty store. -/
theorem runOps_titleInv_witness :
  TitleInv ([] : List Task) ∧
  TitleInv (runOps [StoreOp.add 1 5 dataBuy, StoreOp.toggle 7 1] []) :=
  ⟨by intro t ht; simp at ht,
   runOps_titleInv [StoreOp.add 1 5 dataBuy, StoreOp.toggle 7 1] []
     (by intro t ht; simp at ht)
     (by
       intro op hop
       rcases List.mem_cons.mp hop with rfl | hop
       · trivial
       · rcases List.mem_cons.mp hop with rfl | hop
         · trivial
         · simp at hop)⟩

/-- C6, counterexample: after a valid add, an edit-modal update with an
empty title leaves a stored task whose title is the empty string — the
claimed invariant fails under partial-merge updates. -/
theorem runOps_titleInv_counterexample :
  ¬ TitleInv (runOps [StoreOp.add 1 2 dataBuy, StoreOp.update 1 updEmptyTitle] []) := by
  intro h
  have hmem : (⟨1, "", "", false, "", "", "", "", [], 2, none⟩ : Task) ∈
      runOps [StoreOp.add 1 2 dataBuy, StoreOp.update 1 updEmptyTitle] [] := by
    show (⟨1, "", "", false, "", "", "", "", [], 2, none⟩ : Task) ∈
      [(⟨1, "", "", false, "", "", "", "", [], 2, none⟩ : Task)]
    exact List.mem_singleton.mpr rfl
  exact h _ hmem rfl

/-- Composing two first-replacements whose function preserves the
match predicate replaces once with the composition. -/
theorem replaceFirstBy_comp (p : Task → Bool) (f g : Task → Task)
    (hp : ∀ t, p (f t) = p t) :
  ∀ l, replaceFirstBy p g (replaceFirstBy p f l) =
    replaceFirstBy p (fun t => g (f t)) l := by
  intro l
  induction l with
  | nil => rfl
  | cons t ts ih =>
    by_cases h : p t
    · simp [replaceFirstBy, h, hp]
    · simp [replaceFirstBy, h, ih]

/-- A first-replacement with a predicate-preserving function does not
change whether any element matches. -/
theorem any_replaceFirstBy (p : Task → Bool) (f : Task → Task)
    (hp : ∀ t, p (f t) = p t) :
  ∀ l : List Task, (replaceFirstBy p f l).any p = l.any p := by
  intro l
  induction l with
  | nil => rfl
  | cons t ts ih =>
    by_cases h : p t
    · simp [replaceFirstBy, h, hp]
    · simp [replaceFirstBy, h, ih]

/-- The double-toggle relation is reflexive. -/
theorem toggleTwiceRel_refl (t : Task) : ToggleTwiceRel t t :=
  ⟨rfl, rfl, rfl, rfl, rfl, rfl, rfl, rfl, rfl, rfl, fun h => h⟩

/-- Any list is in the double-toggle relation with itself. -/
theorem forall₂_toggleTwiceRel_refl : ∀ l : List Task, List.Forall₂ ToggleTwiceRel l l := by
  intro l
  induction l with
  | nil => exact List.Forall₂.nil
  | cons t ts ih => exact List.Forall₂.cons (toggleTwiceRel_refl t) ih

/-- The task produced by flipping completion twice is related to the
original, given the completion invariant on it. -/
theorem flip_flip_rel (now1 now2 : Int) (t : Task)
    (hinv : t.completed = true → t.completedAt ≠ none) :
  ToggleTwiceRel t (flipTask now2 (flipTask now1 t)) := by
  refine ⟨rfl, rfl, rfl, ?_, rfl, rfl, rfl, rfl, rfl, rfl, ?_⟩
  · show (!(!t.completed)) = t.completed
    exact Bool.not_not t.completed
  · intro hnone
    by_cases hc : t.completed
    · exact absurd hnone (hinv hc)
    · show (if !(!t.completed) then some now2 else none) = none
      simp [hc]

/-- Pointwise effect of a double replacement by the flip composition. -/
theorem forall₂_replaceFirst_flipflip (now1 now2 id : Int) :
  ∀ l : List Task, (∀ t ∈ l, t.completed = true → t.completedAt ≠ none) →
    List.Forall₂ ToggleTwiceRel l
      (replaceFirstBy (taskMatches id) (fun t => flipTask now2 (flipTask now1 t)) l) := by
  intro l
  induction l with
  | nil =>
    intro _
    exact List.Forall₂.nil
  | cons t ts ih =>
    intro hinv
    by_cases h : taskMatches id t
    · simp only [replaceFirstBy, if_pos h]
      exact List.Forall₂.cons
        (flip_flip_rel now1 now2 t (hinv t (List.mem_cons_self t ts)))
        (forall₂_toggleTwiceRel_refl ts)
    · simp only [replaceFirstBy, if_neg h]
      exact List.Forall₂.cons (toggleTwiceRel_refl t)
        (ih (fun u hu => hinv u (List.mem_cons_of_mem _ hu)))

/-- C9, amended: toggling completion twice on any id returns every
stored task to a state equal to its original in every field except the
freshness of the `completedAt` value, with `completedAt` absent again
when it was absent before — provided the store satisfies the
completion-invariant direction that completed tasks carry a
`completedAt` (a task with `completed = true` and `completedAt`
absent regains a timestamp instead, see the counterexample). -/
theorem toggleTaskComplete_twice (now1 now2 id : Int) (tasks : List Task)
    (hinv : ∀ t ∈ tasks, t.completed = true → t.completedAt ≠ none) :
  List.Forall₂ ToggleTwiceRel tasks
    (toggleTaskComplete now2 id (toggleTaskComplete now1 id tasks).2).2 := by
  have hp : ∀ t, taskMatches id (flipTask now1 t) = taskMatches id t := fun t => rfl
  by_cases hany : tasks.any (taskMatches id)
  · have h1 : (toggleTaskComplete now1 id tasks).2 =
        replaceFirstBy (taskMatches id) (flipTask now1) tasks := by
      simp [toggleTaskComplete, hany]
    rw [h1]
    have hany2 : (replaceFirstBy (taskMatches id) (flipTask now1) tasks).any
        (taskMatches id) = true := by
      rw [any_replaceFirstBy _ _ hp tasks]
      exact hany
    have h2 : (toggleTaskComplete now2 id
        (replaceFirstBy (taskMatches id) (flipTask now1) tasks)).2 =
        replaceFirstBy (taskMatches id) (flipTask now2)
          (replaceFirstBy (taskMatches id) (flipTask now1) tasks) := by
      simp [toggleTaskComplete, hany2]
    rw [h2, replaceFirstBy_comp _ _ _ hp tasks]
    exact forall₂_replaceFirst_flipflip now1 now2 id tasks hinv
  · have h1 : (toggleTaskComplete now1 id tasks).2 = tasks := by
      simp [toggleTaskComplete, hany]
    rw [h1]
    have h2 : (toggleTaskComplete now2 id tasks).2 = tasks := by
      simp [toggleTaskComplete, hany]
    rw [h2]
    exact forall₂_toggleTwiceRel_refl tasks

/-- C9, witness: double toggle on a singleton store holding a
well-formed task. -/
theorem toggleTaskComplete_twice_witness :
  (∀ t ∈ [sampleTask], t.completed = true → t.completedAt ≠ none) ∧
  List.Forall₂ ToggleTwiceRel [sampleTask]
    (toggleTaskComplete 8 1 (toggleTaskComplete 7 1 [sampleTask]).2).2 :=
  ⟨by decide, toggleTaskComplete_twice 7 8 1 [sampleTask] (by decide)⟩

/-- C9, counterexample: a stored task with `completed = true` but
`completedAt` absent does not have `completedAt` absent again after two
toggles — it ends with a fresh timestamp, so the claimed
presence-symmetry fails on it. -/
theorem toggleTaskComplete_twice_counterexample :
  badToggleTask.completedAt = none ∧
  ((toggleTaskComplete 200 1 (toggleTaskComplete 100 1 [badToggleTask]).2).2).map
    Task.completedAt = [some 200] :=
  ⟨rfl, by decide⟩

/-- Flipping completion touches no other field. -/
theorem flipTask_frame (now : Int) (t : Task) :
  (flipTask now t).id = t.id ∧ (flipTask now t).title = t.title ∧
  (flipTask now t).description = t.description ∧
  (flipTask now t).priority = t.priority ∧
  (flipTask now t).category = t.category ∧
  (flipTask now t).dueDate = t.dueDate ∧
  (flipTask now t).dueTime = t.dueTime ∧
  (flipTask now t).tags = t.tags ∧
  (flipTask now t).createdAt = t.createdAt :=
  ⟨rfl, rfl, rfl, rfl, rfl, rfl, rfl, rfl, rfl⟩

/-- C10: a single `toggleTaskComplete` on an id present in the list
replaces exactly the first matching task by its completion flip —
every other task, the list length and the order are unchanged, and the
flipped task agrees with the original on every field other than
`completed` and `completedAt`. -/
theorem toggleTaskComplete_frame (now id : Int) (tasks : List Task)
    (hex : ∃ t ∈ tasks, t.id = id) :
  ∃ pre t post,
    tasks = pre ++ t :: post ∧
    (∀ u ∈ pre, u.id ≠ id) ∧
    t.id = id ∧
    toggleTaskComplete now id tasks = (true, pre ++ flipTask now t :: post) ∧
    ((flipTask now t).id = t.id ∧ (flipTask now t).title = t.title ∧
     (flipTask now t).description = t.description ∧
     (flipTask now t).priority = t.priority ∧
     (flipTask now t).category = t.category ∧
     (flipTask now t).dueDate = t.dueDate ∧
     (flipTask now t).dueTime = t.dueTime ∧
     (flipTask now t).tags = t.tags ∧
     (flipTask now t).createdAt = t.createdAt) ∧
    (pre ++ flipTask now t :: post).length = tasks.length := by
  induction tasks with
  | nil =>
    rcases hex with ⟨t, ht, _⟩
    simp at ht
  | cons t0 ts ih =>
    by_cases h0 : t0.id = id
    · have hm : taskMatches id t0 = true := by
        simp [taskMatches, h0]
      have hany : (t0 :: ts).any (taskMatches id) = true := by
        simp [List.any_cons, hm]
      refine ⟨[], t0, ts, by simp, by simp, h0, ?_, flipTask_frame now t0, by simp⟩
      simp [toggleTaskComplete, hany, replaceFirstBy, hm]
    · have hex2 : ∃ t ∈ ts, t.id = id := by
        rcases hex with ⟨t, ht, hid⟩
        rcases List.mem_cons.mp ht with rfl | ht2
        · exact absurd hid h0
        · exact ⟨t, ht2, hid⟩
      rcases ih hex2 with ⟨pre, t, post, hdec, hpre, hid, htog, _hf, hlen⟩
      have hm : taskMatches id t0 = false := by
        simp [taskMatches]
        exact h0
      have hany2 : ts.any (taskMatches id) = true := by
        rcases hex2 with ⟨u, hu, huid⟩
        refine List.any_eq_true.mpr ⟨u, hu, ?_⟩
        simp [taskMatches, huid]
      have hrep : replaceFirstBy (taskMatches id) (flipTask now) ts =
          pre ++ flipTask now t :: post := by
        have := htog
        simp only [toggleTaskComplete, hany2, if_pos] at this
        exact (Prod.mk.injEq _ _ _ _).mp this |>.2
      refine ⟨t0 :: pre, t, post, by simp [hdec], ?_, hid, ?_, flipTask_frame now t, ?_⟩
      · intro u hu
        rcases List.mem_cons.mp hu with rfl | hu2
        · exact h0
        · exact hpre u hu2
      · have hany3 : (t0 :: ts).any (taskMatches id) = true := by
          simp [List.any_cons, hany2]
        simp only [toggleTaskComplete, hany3, if_pos, replaceFirstBy, hm,
          Bool.false_eq_true, List.cons_append]
        rw [hrep]
        simp
      · simp only [List.length_append, List.length_cons] at hlen ⊢
        omega

/-- C10, witness: toggling the singleton store containing the sample
task. -/
theorem toggleTaskComplete_frame_witness :
  (∃ t ∈ [sampleTask], t.id = 1) ∧
  (∃ pre t post,
    [sampleTask] = pre ++ t :: post ∧
    (∀ u ∈ pre, u.id ≠ 1) ∧
    t.id = 1 ∧
    toggleTaskComplete 5 1 [sampleTask] = (true, pre ++ flipTask 5 t :: post) ∧
    ((flipTask 5 t).id = t.id ∧ (flipTask 5 t).title = t.title ∧
     (flipTask 5 t).description = t.description ∧
     (flipTask 5 t).priority = t.priority ∧
     (flipTask 5 t).category = t.category ∧
     (flipTask 5 t).dueDate = t.dueDate ∧
     (flipTask 5 t).dueTime = t.dueTime ∧
     (flipTask 5 t).tags = t.tags ∧
     (flipTask 5 t).createdAt = t.createdAt) ∧
    (pre ++ flipTask 5 t :: post).length = ([sampleTask] : List Task).length) :=
  ⟨⟨sampleTask, List.mem_singleton.mpr rfl, rfl⟩,
   toggleTaskComplete_frame 5 1 [sampleTask] ⟨sampleTask, List.mem_singleton.mpr rfl, rfl⟩⟩

/-- Nothing compares strictly below the empty character list. -/
theorem not_list_lt_nil (l : List Char) : ¬ (l < ([] : List Char)) := by
  intro h
  cases h

/-- C2: for every task list and every nonempty current-date string, the
list projection puts each task in exactly one of the five buckets
(overdue, due today, upcoming, no date, completed), and each
non-completed task with a due date in exactly one of the three dated
buckets. -/
theorem renderListView_partition (today : String) (tasks : List Task) (t : Task)
    (htoday : today ≠ "") (hmem : t ∈ tasks) :
  ((if t ∈ (renderListView today tasks).overdue then 1 else 0) +
   (if t ∈ (renderListView today tasks).dueToday then 1 else 0) +
   (if t ∈ (renderListView today tasks).upcoming then 1 else 0) +
   (if t ∈ (renderListView today tasks).noDate then 1 else 0) +
   (if t ∈ (renderListView today tasks).completedTasks then 1 else 0) = 1) ∧
  (t.completed = false → t.dueDate ≠ "" →
   ((if t ∈ (renderListView today tasks).overdue then 1 else 0) +
    (if t ∈ (renderListView today tasks).dueToday then 1 else 0) +
    (if t ∈ (renderListView today tasks).upcoming then 1 else 0) = 1)) := by
  simp only [renderListView, List.mem_filter, hmem, true_and]
  by_cases hc : t.completed
  · simp [isOverdue, isToday, isUpcoming, hc]
  · by_cases hd : t.dueDate = ""
    · have hnotlt : ¬ (today < t.dueDate) := by
        rw [hd]
        intro hlt
        exact not_list_lt_nil today.toList (String.lt_iff_toList_lt.mp hlt)
      simp [isOverdue, isToday, isUpcoming, hc, hd, Ne.symm htoday, hnotlt]
    · rcases lt_trichotomy t.dueDate today with hlt | heq | hgt
      · have h1 : t.dueDate ≠ today := ne_of_lt hlt
        have h2 : ¬ (today < t.dueDate) := lt_asymm hlt
        simp [isOverdue, isToday, isUpcoming, hc, hd, hlt, h1, h2]
      · have h2 : ¬ (t.dueDate < today) := by rw [heq]; exact lt_irrefl today
        have h3 : ¬ (today < t.dueDate) := by rw [heq]; exact lt_irrefl today
        simp [isOverdue, isToday, isUpcoming, hc, hd, heq, h2, h3, htoday]
      · have h1 : t.dueDate ≠ today := (ne_of_lt hgt).symm
        have h2 : ¬ (t.dueDate < today) := lt_asymm hgt
        simp [isOverdue, isToday, isUpcoming, hc, hd, hgt, h1, h2]

/-- C2, witness: the sample task, due 2024-01-15 and pending, falls in
exactly one bucket of the list projection for 2024-01-16. -/
theorem renderListView_partition_witness :
  ("2024-01-16" : String) ≠ "" ∧ sampleTask ∈ [sampleTask] ∧
  (((if sampleTask ∈ (renderListView "2024-01-16" [sampleTask]).overdue then 1 else 0) +
    (if sampleTask ∈ (renderListView "2024-01-16" [sampleTask]).dueToday then 1 else 0) +
    (if sampleTask ∈ (renderListView "2024-01-16" [sampleTask]).upcoming then 1 else 0) +
    (if sampleTask ∈ (renderListView "2024-01-16" [sampleTask]).noDate then 1 else 0) +
    (if sampleTask ∈ (renderListView "2024-01-16" [sampleTask]).completedTasks then 1 else 0)
      = 1) ∧
   (sampleTask.completed = false → sampleTask.dueDate ≠ "" →
    ((if sampleTask ∈ (renderListView "2024-01-16" [sampleTask]).overdue then 1 else 0) +
     (if sampleTask ∈ (renderListView "2024-01-16" [sampleTask]).dueToday then 1 else 0) +
     (if sampleTask ∈ (renderListView "2024-01-16" [sampleTask]).upcoming then 1 else 0)
       = 1))) :=
  ⟨by decide, List.mem_singleton.mpr rfl,
   renderListView_partition "2024-01-16" [sampleTask] sampleTask (by decide)
     (List.mem_singleton.mpr rfl)⟩

/-- Elements of a merge come from one of the two runs. -/
theorem mergeLe_mem (le : Task → Task → Bool) :
  ∀ (n : Nat) (xs ys : List Task) (z : Task), xs.length + ys.length ≤ n →
    z ∈ mergeLe le xs ys → z ∈ xs ∨ z ∈ ys := by
  intro n
  induction n with
  | zero =>
    intro xs ys z hlen hz
    match xs, ys with
    | [], [] =>
      simp [mergeLe] at hz
    | [], y :: ys =>
      simp only [List.length_nil, List.length_cons] at hlen
      omega
    | x :: xs, ys =>
      simp only [List.length_cons] at hlen
      omega
  | succ n ih =>
    intro xs ys z hlen hz
    match xs, ys with
    | [], ys =>
      simp only [mergeLe] at hz
      exact Or.inr hz
    | x :: xs, [] =>
      simp only [mergeLe] at hz
      exact Or.inl hz
    | x :: xs, y :: ys =>
      simp only [mergeLe] at hz
      by_cases hle : le x y
      · rw [if_pos hle] at hz
        rcases List.mem_cons.mp hz with rfl | hz2
        · exact Or.inl (List.mem_cons_self _ _)
        · have hlen2 : xs.length + (y :: ys).length ≤ n := by
            simp only [List.length_cons] at hlen ⊢
            omega
          rcases ih xs (y :: ys) z hlen2 hz2 with h | h
          · exact Or.inl (List.mem_cons_of_mem _ h)
          · exact Or.inr h
      · rw [if_neg hle] at hz
        rcases List.mem_cons.mp hz with rfl | hz2
        · exact Or.inr (List.mem_cons_self _ _)
        · have hlen2 : (x :: xs).length + ys.length ≤ n := by
            simp only [List.length_cons] at hlen ⊢
            omega
          rcases ih (x :: xs) ys z hlen2 hz2 with h | h
          · exact Or.inl h
          · exact Or.inr (List.mem_cons_of_mem _ h)

/-- The completion ordering is transitive. -/
theorem completedImp_trans {a b c : Task} (h1 : completedImp a b) (h2 : completedImp b c) :
  completedImp a c := fun h => h2 (h1 h)

/-- Merging two runs in which no completed task precedes an incomplete
one yields such a sequence again, for any comparator that sends
completed tasks after incomplete ones. -/
theorem mergeLe_pairwise (le : Task → Task → Bool)
    (h1 : ∀ a b, a.completed = true → b.completed = false → le a b = false)
    (h2 : ∀ a b, a.completed = false → b.completed = true → le a b = true) :
  ∀ (n : Nat) (xs ys : List Task), xs.length + ys.length ≤ n →
    xs.Pairwise completedImp → ys.Pairwise completedImp →
    (mergeLe le xs ys).Pairwise completedImp := by
  intro n
  induction n with
  | zero =>
    intro xs ys hlen hxs hys
    match xs, ys with
    | [], [] => simp [mergeLe]
    | [], y :: ys =>
      simp only [List.length_nil, List.length_cons] at hlen
      omega
    | x :: xs, ys =>
      simp only [List.length_cons] at hlen
      omega
  | succ n ih =>
    intro xs ys hlen hxs hys
    match xs, ys with
    | [], ys =>
      simp only [mergeLe]
      exact hys
    | x :: xs, [] =>
      simp only [mergeLe]
      exact hxs
    | x :: xs, y :: ys =>
      simp only [mergeLe]
      rcases List.pairwise_cons.mp hxs with ⟨hx, hxs2⟩
      rcases List.pairwise_cons.mp hys with ⟨hy, hys2⟩
      by_cases hle : le x y
      · rw [if_pos hle]
        have hxy : completedImp x y := by
          intro hxc
          by_cases hyc : y.completed
          · exact hyc
          · exact absurd hle (by simp [h1 x y hxc (Bool.not_eq_true y.completed ▸ hyc)])
        refine List.pairwise_cons.mpr ⟨?_, ?_⟩
        · intro z hz
          have hlen2 : xs.length + (y :: ys).length ≤ n := by
            simp only [List.length_cons] at hlen ⊢
            omega
          rcases mergeLe_mem le n xs (y :: ys) z hlen2 hz with h | h
          · exact hx z h
          · rcases List.mem_cons.mp h with rfl | h2
            · exact hxy
            · exact completedImp_trans hxy (hy z h2)
        · have hlen2 : xs.length + (y :: ys).length ≤ n := by
            simp only [List.length_cons] at hlen ⊢
            omega
          exact ih xs (y :: ys) hlen2 hxs2 hys
      · rw [if_neg hle]
        have hyx : completedImp y x := by
          intro hyc
          by_cases hxc : x.completed
          · exact hxc
          · exact absurd hle (by simp [h2 x y (Bool.not_eq_true x.completed ▸ hxc) hyc])
        refine List.pairwise_cons.mpr ⟨?_, ?_⟩
        · intro z hz
          have hlen2 : (x :: xs).length + ys.length ≤ n := by
            simp only [List.length_cons] at hlen ⊢
            omega
          rcases mergeLe_mem le n (x :: xs) ys z hlen2 hz with h | h
          · rcases List.mem_cons.mp h with rfl | h2
            · exact hyx
            · exact completedImp_trans hyx (hx z h2)
          · exact hy z h
        · have hlen2 : (x :: xs).length + ys.length ≤ n := by
            simp only [List.length_cons] at hlen ⊢
            omega
          exact ih (x :: xs) ys hlen2 hxs hys2

/-- The merge sort of any list, under a comparator that sends completed
tasks after incomplete ones, never puts a completed task before an
incomplete one. -/
theorem mergeSortBy_pairwise (le : Task → Task → Bool)
    (h1 : ∀ a b, a.completed = true → b.completed = false → le a b = false)
    (h2 : ∀ a b, a.completed = false → b.completed = true → le a b = true) :
  ∀ (n : Nat) (l : List Task), l.length ≤ n → (mergeSortBy le l).Pairwise completedImp := by
  intro n
  induction n with
  | zero =>
    intro l hlen
    match l with
    | [] => simp [mergeSortBy]
    | x :: xs =>
      simp only [List.length_cons] at hlen
      omega
  | succ n ih =>
    intro l hlen
    rw [mergeSortBy]
    by_cases hshort : l.length ≤ 1
    · rw [dif_pos hshort]
      match l, hshort with
      | [], _ => exact List.Pairwise.nil
      | [a], _ => simp
    · rw [dif_neg hshort]
      have htake : (l.take (l.length / 2)).length ≤ n := by
        simp only [List.length_take]
        omega
      have hdrop : (l.drop (l.length / 2)).length ≤ n := by
        simp only [List.length_drop]
        omega
      exact mergeLe_pairwise le h1 h2
        ((mergeSortBy le (l.take (l.length / 2))).length +
          (mergeSortBy le (l.drop (l.length / 2))).length)
        _ _ (le_refl _) (ih _ htake) (ih _ hdrop)

/-- C3: for every task list, category filter, search string and sort
mode, the filter/sort pipeline never places a completed task before an
incomplete one. -/
theorem getFilteredTasks_completed_last :
  ∀ (category searchRaw sortBy : String) (tasks : List Task),
    (getFilteredTasks category searchRaw sortBy tasks).Pairwise completedImp := by
  intro category searchRaw sortBy tasks
  have h1 : ∀ a b : Task, a.completed = true → b.completed = false →
      (decide (taskCompare sortBy a b ≤ 0)) = false := by
    intro a b ha hb
    simp [taskCompare, ha, hb]
  have h2 : ∀ a b : Task, a.completed = false → b.completed = true →
      (decide (taskCompare sortBy a b ≤ 0)) = true := by
    intro a b ha hb
    simp [taskCompare, ha, hb]
  exact mergeSortBy_pairwise _ h1 h2 _ _ (le_refl _)

/-- A digit character built from a value below ten satisfies the digit
test. -/
theorem padDigit_isDigit (n : Nat) (h : n ≤ 9) : isDigitChar (padDigit n) = true := by
  interval_cases n <;> decide

/-- The value of a digit character built from a value below ten. -/
theorem digitVal_padDigit (n : Nat) (h : n ≤ 9) : digitVal (padDigit n) = n := by
  interval_cases n <;> decide

/-- Every month has at most 31 days. -/
theorem daysInMonth_le_31 (y m0 : Nat) : daysInMonth y m0 ≤ 31 := by
  unfold daysInMonth
  split_ifs <;> omega

/-- The date parser inverts the ISO date printer on valid civil
dates. -/
theorem jsDateParse_isoDateStr (y m0 d : Nat) (hy : y ≤ 9999) (hm : m0 < 12)
    (hd1 : 1 ≤ d) (hd31 : d ≤ 31) :
  jsDateParse (isoDateStr y m0 d) = some (y, m0, d) := by
  have e1 : y / 1000 ≤ 9 := by omega
  have e2 : y / 100 % 10 ≤ 9 := by omega
  have e3 : y / 10 % 10 ≤ 9 := by omega
  have e4 : y % 10 ≤ 9 := by omega
  have e5 : (m0 + 1) / 10 ≤ 9 := by omega
  have e6 : (m0 + 1) % 10 ≤ 9 := by omega
  have e7 : d / 10 ≤ 9 := by omega
  have e8 : d % 10 ≤ 9 := by omega
  show (if '-' = '-' ∧ '-' = '-' ∧
         ([padDigit (y / 1000), padDigit (y / 100 % 10), padDigit (y / 10 % 10),
           padDigit (y % 10), padDigit ((m0 + 1) / 10), padDigit ((m0 + 1) % 10),
           padDigit (d / 10), padDigit (d % 10)].all isDigitChar = true) then
        let yy := digitVal (padDigit (y / 1000)) * 1000 + digitVal (padDigit (y / 100 % 10)) * 100 +
          digitVal (padDigit (y / 10 % 10)) * 10 + digitVal (padDigit (y % 10))
        let mm := digitVal (padDigit ((m0 + 1) / 10)) * 10 + digitVal (padDigit ((m0 + 1) % 10))
        let dd := digitVal (padDigit (d / 10)) * 10 + digitVal (padDigit (d % 10))
        if 1 ≤ mm ∧ mm ≤ 12 ∧ 1 ≤ dd ∧ dd ≤ 31 then some (yy, mm - 1, dd) else none
      else none) = some (y, m0, d)
  rw [if_pos]
  · simp only [digitVal_padDigit _ e1, digitVal_padDigit _ e2, digitVal_padDigit _ e3,
      digitVal_padDigit _ e4, digitVal_padDigit _ e5, digitVal_padDigit _ e6,
      digitVal_padDigit _ e7, digitVal_padDigit _ e8]
    rw [if_pos (by omega)]
    simp only [Option.some.injEq, Prod.mk.injEq]
    refine ⟨by omega, by omega, by omega⟩
  · refine ⟨rfl, rfl, ?_⟩
    simp only [List.all_cons, List.all_nil, Bool.and_true, Bool.and_eq_true]
    exact ⟨padDigit_isDigit _ e1, padDigit_isDigit _ e2, padDigit_isDigit _ e3,
      padDigit_isDigit _ e4, padDigit_isDigit _ e5, padDigit_isDigit _ e6,
      padDigit_isDigit _ e7, padDigit_isDigit _ e8⟩

/-- Two ISO date strings of the same displayed month agree exactly on
equal day numbers. -/
theorem isoDateStr_inj_day (year m0 d d' : Nat) (hy2 : year ≤ 9999) (hm : m0 < 12)
    (hd1 : 1 ≤ d) (hd31 : d ≤ 31) (hd1' : 1 ≤ d') (hd31' : d' ≤ 31) :
  isoDateStr year m0 d = isoDateStr year m0 d' ↔ d = d' := by
  constructor
  · intro h
    have p1 := jsDateParse_isoDateStr year m0 d hy2 hm hd1 hd31
    have p2 := jsDateParse_isoDateStr year m0 d' hy2 hm hd1' hd31'
    rw [h, p2] at p1
    simpa using p1.symm
  · intro h
    rw [h]

/-- C8: for a displayed month with N days and starting weekday offset
K, the calendar projection renders exactly K leading blank cells
followed by the N day cells in day order, and a task of the unfiltered
list whose due date is the ISO string of day d of that month is
attached to exactly one cell, the day-d cell. -/
theorem renderCalendarView_spec (year m0 d : Nat) (tasks : List Task) (t : Task)
    (_hy1 : 100 ≤ year) (hy2 : year ≤ 9999) (hm : m0 < 12) (hmem : t ∈ tasks)
    (hd1 : 1 ≤ d) (hdN : d ≤ daysInMonth year m0)
    (hdue : t.dueDate = isoDateStr year m0 d) :
  (renderCalendarView year m0 tasks).length =
    startDayOfWeek year m0 + daysInMonth year m0 ∧
  (renderCalendarView year m0 tasks).take (startDayOfWeek year m0) =
    List.replicate (startDayOfWeek year m0) CalCell.blank ∧
  ((renderCalendarView year m0 tasks).drop (startDayOfWeek year m0)).map cellDayNum =
    (List.range' 1 (daysInMonth year m0)).map some ∧
  (renderCalendarView year m0 tasks).countP (fun c => taskAttachedTo t c) = 1 ∧
  (∃ ts, (renderCalendarView year m0 tasks)[startDayOfWeek year m0 + (d - 1)]? =
      some (CalCell.day d ts) ∧ t ∈ ts) := by
  have hdle : d ≤ 31 := le_trans hdN (daysInMonth_le_31 year m0)
  have hparse : jsDateParse t.dueDate = some (year, m0, d) := by
    rw [hdue]
    exact jsDateParse_isoDateStr year m0 d hy2 hm hd1 hdle
  have hcal : renderCalendarView year m0 tasks =
      List.replicate (startDayOfWeek year m0) CalCell.blank ++
        (List.range' 1 (daysInMonth year m0)).map (fun d' =>
          CalCell.day d' ((tasks.filter (fun u =>
            match jsDateParse u.dueDate with
            | some p => (p.1 == year) && (p.2.1 == m0)
            | none => false)).filter (fun u => u.dueDate == isoDateStr year m0 d'))) := rfl
  have hTM : t ∈ tasks.filter (fun u =>
      match jsDateParse u.dueDate with
      | some p => (p.1 == year) && (p.2.1 == m0)
      | none => false) := by
    refine List.mem_filter.mpr ⟨hmem, ?_⟩
    rw [hparse]
    simp
  refine ⟨?_, ?_, ?_, ?_, ?_⟩
  · rw [hcal]
    simp
  · rw [hcal]
    exact List.take_left' (List.length_replicate _ _)
  · rw [hcal, List.drop_left' (List.length_replicate _ _), List.map_map]
    simp [cellDayNum, Function.comp]
  · rw [hcal, List.countP_append, List.countP_map]
    have hz : (List.replicate (startDayOfWeek year m0) CalCell.blank).countP
        (fun c => taskAttachedTo t c) = 0 := by
      refine List.countP_eq_zero.mpr ?_
      intro c hc
      rw [List.eq_of_mem_replicate hc]
      simp [taskAttachedTo]
    rw [hz]
    have hcong : ∀ d' ∈ List.range' 1 (daysInMonth year m0),
        ((fun c => taskAttachedTo t c) ∘ (fun d' =>
          CalCell.day d' ((tasks.filter (fun u =>
            match jsDateParse u.dueDate with
            | some p => (p.1 == year) && (p.2.1 == m0)
            | none => false)).filter (fun u => u.dueDate == isoDateStr year m0 d')))) d' ↔
        (d' == d) := by
      intro d' hd'
      rcases List.mem_range'_1.mp hd' with ⟨h1', h2'⟩
      have hd31' : d' ≤ 31 := by
        have := daysInMonth_le_31 year m0
        omega
      show (decide (t ∈ _)) = true ↔ (d' == d) = true
      by_cases he : d' = d
      · subst he
        simp only [beq_self_eq_true, iff_true, decide_eq_true_eq]
        exact List.mem_filter.mpr ⟨hTM, by rw [hdue]; exact beq_self_eq_true _⟩
      · have hne : ¬ (t.dueDate == isoDateStr year m0 d') = true := by
          rw [hdue]
          intro hcontra
          exact he (((isoDateStr_inj_day year m0 d d' hy2 hm hd1 hdle h1' hd31').mp
            (eq_of_beq hcontra))).symm
        have hnm : ¬ t ∈ (tasks.filter (fun u =>
            match jsDateParse u.dueDate with
            | some p => (p.1 == year) && (p.2.1 == m0)
            | none => false)).filter (fun u => u.dueDate == isoDateStr year m0 d') :=
          fun hmem2 => hne (List.mem_filter.mp hmem2).2
        simp only [decide_eq_true_eq]
        exact iff_of_false hnm (by simp [he])
    rw [List.countP_congr hcong]
    show 0 + (List.range' 1 (daysInMonth year m0)).count d = 1
    rw [Nat.zero_add]
    rw [List.count_eq_one_of_mem (List.nodup_range' 1 (daysInMonth year m0))
      (List.mem_range'_1.mpr ⟨hd1, by omega⟩)]
  · rw [hcal]
    rw [List.getElem?_append_right (by simp only [List.length_replicate]; omega)]
    rw [List.length_replicate]
    have hidx : startDayOfWeek year m0 + (d - 1) - startDayOfWeek year m0 = d - 1 := by
      omega
    rw [hidx, List.getElem?_map, List.getElem?_range' 1 1 (show d - 1 < daysInMonth year m0 by omega)]
    have hone : 1 + 1 * (d - 1) = d := by omega
    rw [hone]
    refine ⟨_, rfl, ?_⟩
    refine List.mem_filter.mpr ⟨hTM, ?_⟩
    rw [hdue]
    exact beq_self_eq_true _




/-- C8, witness: January 2024 with the sample task due on the 15th. -/
theorem renderCalendarView_spec_witness :
  100 ≤ 2024 ∧ (2024 : Nat) ≤ 9999 ∧ (0 : Nat) < 12 ∧ sampleTask ∈ [sampleTask] ∧
  1 ≤ 15 ∧ 15 ≤ daysInMonth 2024 0 ∧ sampleTask.dueDate = isoDateStr 2024 0 15 ∧
  ((renderCalendarView 2024 0 [sampleTask]).length =
    startDayOfWeek 2024 0 + daysInMonth 2024 0 ∧
  (renderCalendarView 2024 0 [sampleTask]).take (startDayOfWeek 2024 0) =
    List.replicate (startDayOfWeek 2024 0) CalCell.blank ∧
  ((renderCalendarView 2024 0 [sampleTask]).drop (startDayOfWeek 2024 0)).map cellDayNum =
    (List.range' 1 (daysInMonth 2024 0)).map some ∧
  (renderCalendarView 2024 0 [sampleTask]).countP
    (fun c => taskAttachedTo sampleTask c) = 1 ∧
  (∃ ts, (renderCalendarView 2024 0 [sampleTask])[startDayOfWeek 2024 0 + (15 - 1)]? =
      some (CalCell.day 15 ts) ∧ sampleTask ∈ ts)) :=
  ⟨by omega, by omega, by omega, List.mem_singleton.mpr rfl, by omega, by decide, by decide,
   renderCalendarView_spec 2024 0 15 [sampleTask] sampleTask (by omega) (by omega) (by omega)
     (List.mem_singleton.mpr rfl) (by omega) (by decide) (by decide)⟩

end Todo
